import Mathlib

/-!
# Chained hash table of `0x1A-hash_tables/100-sorted_hash_table.c`

A shallow embedding of `shash_table_create`, `shash_table_set`,
`shash_table_get` and `shash_table_print`, and the properties the
specification states about them.

Conventions of the embedding:

* a C string (`char *` to a NUL-terminated buffer) is the `String` of its
  content; a pointer that may be `NULL` is an `Option`;
* a bucket chain (nodes linked through `next`) is the `List` of its nodes,
  head first; the bucket array is the `List` of the chains;
* `unsigned long` values are `Nat`; the only arithmetic on them is the hash,
  which is reduced modulo `2 ^ 64`;
* a function that writes through `ht` returns the table after the call next
  to its C return value;
* the outcome of each allocation (`calloc`, `malloc`, `strdup`) is an
  explicit Boolean argument: `true` when the allocation succeeds.
-/

namespace ShashTable

/-! ## Data model -/

/-- Modelled from the spec: the declaration of `shash_node_t` is in
`hash_tables.h`, which is not among the sources. An Entry owns a copy of a
key string and a copy of a value string; the reference to the next Entry of
the chain (`next` in the code) is the tail of the list holding the node. -/
structure shash_node_t where
  key : String
  value : String
deriving DecidableEq, Repr

/-- Modelled from the spec: the declaration of `shash_table_t` is in
`hash_tables.h`, which is not among the sources. The table stores the
declared capacity (`size`) and a sequence of bucket heads (`array`), each the
chain of that bucket. -/
structure shash_table_t where
  size : Nat
  array : List (List shash_node_t)
deriving DecidableEq, Repr

/-- Modelled from the spec: `hash_djb2` is not among the sources. "Classic
djb2-style: start from a fixed seed, repeatedly `hash = hash * 33 + byte`",
on a `u64`, over the bytes of the key; the seed of classic djb2 is 5381. -/
def hash_djb2 (str : String) : Nat :=
  (str.data.flatMap String.utf8EncodeChar).foldl
    (fun hash byte => (hash * 33 + byte.toNat) % 2 ^ 64) 5381

/-- Modelled from the spec: `key_index` is not among the sources.
"`index(key, capacity)` returns `hash(key) mod capacity`", the capacity being
nonzero for every table `shash_table_create` returns. -/
def key_index (key : String) (size : Nat) : Nat :=
  hash_djb2 key % size

/-- The C library `strdup`: a fresh copy of the string, or `NULL` when the
allocation fails. -/
def strdup (ok : Bool) (s : String) : Option String :=
  if ok then some s else none

/-! ## `shash_table_create` -/

/-- The two `calloc` calls of `shash_table_create`. -/
structure create_alloc where
  ht : Bool
  array : Bool
deriving DecidableEq, Repr

/-- Source `shash_table_create`: `NULL` for size 0 or a failed allocation,
otherwise a table of `size` zeroed (empty) buckets. -/
def shash_table_create (a : create_alloc) (size : Nat) : Option shash_table_t :=
  if size = 0 then none
  else if !a.ht then none
  else if !a.array then none
  else some { size := size, array := List.replicate size [] }

/-! ## `shash_table_set` -/

/-- The three allocations of `shash_table_set`, in program order:
`strdup(value)`, `malloc` of the node, `strdup(key)`. -/
structure set_alloc where
  valueCpy : Bool
  node : Bool
  keyCpy : Bool
deriving DecidableEq, Repr

/-- The `while (search)` loop of `shash_table_set`: the chain with the value
of the first node whose key equals `key` replaced by `valueCpy`, or `none`
when the loop runs off the end of the chain. -/
def set_search (key valueCpy : String) : List shash_node_t → Option (List shash_node_t)
  | [] => none
  | search :: rest =>
    if key = search.key then some ({ search with value := valueCpy } :: rest)
    else (set_search key valueCpy rest).map (fun rest1 => search :: rest1)

/-- Source `shash_table_set`: the C return value and the table after the
call. -/
def shash_table_set (a : set_alloc) (ht : Option shash_table_t)
    (key value : Option String) : Int × Option shash_table_t :=
  match ht, key, value with
  | some t, some k, some v =>
    if k = "" then (0, ht)
    else
      match strdup a.valueCpy v with
      | none => (0, ht)
      | some valueCpy =>
        let idx := key_index k t.size
        match set_search k valueCpy (t.array.getD idx []) with
        | some chain => (1, some { t with array := t.array.set idx chain })
        | none =>
          if !a.node then (0, ht)
          else
            match strdup a.keyCpy k with
            | none => (0, ht)
            | some keyCpy =>
              let new : shash_node_t := { key := keyCpy, value := valueCpy }
              (1, some { t with array := t.array.set idx (new :: t.array.getD idx []) })
  | _, _, _ => (0, ht)

/-! ## `shash_table_get` -/

/-- The `while (search)` loop of `shash_table_get`: the value of the first
node whose key equals `key`, or `NULL`. -/
def get_search (key : String) : List shash_node_t → Option String
  | [] => none
  | search :: rest =>
    if key = search.key then some search.value else get_search key rest

/-- Source `shash_table_get`. -/
def shash_table_get (ht : Option shash_table_t) (key : Option String) : Option String :=
  match ht, key with
  | some t, some k =>
    if k = "" then none
    else get_search k (t.array.getD (key_index k t.size) [])
  | _, _ => none

/-! ## `shash_table_print` -/

/-- The inner `while (current)` loop of `shash_table_print`, on the pair of
the text written so far and the `first` flag. -/
def print_chain : List shash_node_t → String × Bool → String × Bool
  | [], st => st
  | current :: rest, (out, first) =>
    let out1 := if !first then out ++ ", " else out
    let out2 := out1 ++ ("'" ++ current.key ++ "': '" ++ current.value ++ "'")
    print_chain rest (out2, false)

/-- Source `shash_table_print`: the text written to standard output. -/
def shash_table_print (ht : Option shash_table_t) : String :=
  match ht with
  | none => ""
  | some t =>
    let st := (List.range t.size).foldl
      (fun st idx => print_chain (t.array.getD idx []) st) ("\x7b", true)
    st.1 ++ "\x7d\n"


/-! ## Notions the properties are stated with -/

/-- A live table: its capacity is positive and its bucket array has as many
slots as the capacity (what `calloc(size, ...)` gave it). -/
def live (t : shash_table_t) : Prop :=
  0 < t.size ∧ t.array.length = t.size

instance (t : shash_table_t) : Decidable (live t) := by
  unfold live; infer_instance

/-- Every allocation of a `shash_table_set` call succeeds. -/
def set_ok : set_alloc :=
  { valueCpy := true, node := true, keyCpy := true }

/-- Every allocation of a `shash_table_create` call succeeds. -/
def create_ok : create_alloc :=
  { ht := true, array := true }

/-- One call `shash_table_set(ht, key, value)`: its arguments and the
outcome of its allocations. -/
structure set_call where
  a : set_alloc
  key : Option String
  value : Option String
deriving DecidableEq, Repr

/-- A sequence of `shash_table_set` calls on the same table, in order: the
return values of the calls and the table after the last one. -/
def run_sets (ht : Option shash_table_t) : List set_call → List Int × Option shash_table_t
  | [] => ([], ht)
  | c :: cs =>
    let r := shash_table_set c.a ht c.key c.value
    let rs := run_sets r.2 cs
    (r.1 :: rs.1, rs.2)

/-- The calls of the scenario `set(t,"a","1"); set(t,"b","2")`. -/
def scenario_calls : List set_call :=
  [⟨set_ok, some "a", some "1"⟩, ⟨set_ok, some "b", some "2"⟩]

/-- A live table of capacity 1 holding the pair `("k", "old")`. -/
def table_k_old : shash_table_t :=
  { size := 1, array := [[{ key := "k", value := "old" }]] }

/-- A live table of capacity 2 with one entry in each bucket. -/
def table_two : shash_table_t :=
  { size := 2, array := [[{ key := "a", value := "1" }], [{ key := "b", value := "2" }]] }

/-- The text `printf("'%s': '%s'", key, value)` writes for a node. -/
def render (n : shash_node_t) : String :=
  "'" ++ n.key ++ "': '" ++ n.value ++ "'"

/-- The entries of a table, bucket by bucket from index 0 to `size - 1`, and
head to tail within each bucket. -/
def entries (t : shash_table_t) : List shash_node_t :=
  (List.range t.size).flatMap (fun i => t.array.getD i [])

/-- The pieces of text joined with `", "`; when `first` is false the
separator also comes before the first piece. -/
def sep_concat : Bool → List String → String
  | _, [] => ""
  | true, s :: rest => s ++ sep_concat false rest
  | false, s :: rest => ", " ++ s ++ sep_concat false rest

/-- A table of capacity 3 with a chain of two entries and an empty bucket. -/
def table_three : shash_table_t :=
  { size := 3,
    array := [[{ key := "c", value := "3" }, { key := "f", value := "" }], [],
      [{ key := "b", value := "2" }]] }

/-- Every entry stored in bucket `i` has a key of index `i`. -/
def bucket_indexed (t : shash_table_t) : Prop :=
  ∀ i, i < t.array.length → ∀ n ∈ t.array.getD i [], key_index n.key t.size = i

instance (t : shash_table_t) : Decidable (bucket_indexed t) := by
  unfold bucket_indexed; infer_instance

/-- No key occurs in more than one entry of the whole table. -/
def keys_unique (t : shash_table_t) : Prop :=
  (t.array.flatten.map shash_node_t.key).Nodup

instance (t : shash_table_t) : Decidable (keys_unique t) := by
  unfold keys_unique; infer_instance

/-- The tables reachable from `shash_table_create` by `shash_table_set`
calls, whatever the arguments and the allocation outcomes of the calls. -/
inductive reachable : shash_table_t → Prop
  | create (a : create_alloc) (size : Nat) (t : shash_table_t) :
      shash_table_create a size = some t → reachable t
  | set (a : set_alloc) (t : shash_table_t) (key value : Option String) (t1 : shash_table_t) :
      reachable t → (shash_table_set a (some t) key value).2 = some t1 → reachable t1

/-- The key/value pair an entry holds. -/
def pair_of (n : shash_node_t) : String × String :=
  (n.key, n.value)

/-- The call `shash_table_set(ht, key, value)` for a pair, with every
allocation succeeding. -/
def call_of (p : String × String) : set_call :=
  { a := set_ok, key := some p.1, value := some p.2 }

/-- Three pairs with distinct non-empty keys, two of them falling in the
same bucket of a table of capacity 2. -/
def three_pairs : List (String × String) :=
  [("a", "1"), ("b", "2"), ("c", "3")]

/-- The entry with its value replaced by `v` when its key is `k`, and as it
is otherwise. -/
def set_value (k v : String) (n : shash_node_t) : shash_node_t :=
  if n.key = k then { n with value := v } else n

/-- The entry holding a key/value pair. -/
def node_of (p : String × String) : shash_node_t :=
  { key := p.1, value := p.2 }

/-- Three pairs whose keys are neither ascending nor descending in
insertion order. -/
def unsorted_pairs : List (String × String) :=
  [("a", "1"), ("c", "3"), ("b", "2")]

/-! ## Lemmas and theorems -/

theorem key_index_lt (key : String) (size : Nat) (h : 0 < size) : key_index key size < size :=
  Nat.mod_lt _ h

theorem get_search_set_search (k v : String) (chain chain1 : List shash_node_t)
    (h : set_search k v chain = some chain1) (k1 : String) :
    get_search k1 chain1 = if k1 = k then some v else get_search k1 chain := by
  induction chain generalizing chain1 with
  | nil => simp [set_search] at h
  | cons n rest ih =>
    simp only [set_search] at h
    split at h
    · rename_i hk
      cases h
      by_cases h1 : k1 = k
      · simp [get_search, h1, hk]
      · have h2 : ¬ k1 = n.key := by rw [← hk]; exact h1
        simp [get_search, h1, h2]
    · rename_i hk
      cases hr : set_search k v rest with
      | none => simp [hr] at h
      | some rest1 =>
        simp [hr] at h
        subst h
        have := ih rest1 hr
        by_cases h1 : k1 = n.key
        · have h2 : ¬ k1 = k := by rw [h1]; exact fun e => hk e.symm
          simp only [get_search, if_pos h1, if_neg h2]
        · simp [get_search, h1, this]

theorem set_search_none (k v : String) (chain : List shash_node_t) :
    set_search k v chain = none ↔ get_search k chain = none := by
  induction chain with
  | nil => simp [set_search, get_search]
  | cons n rest ih =>
    by_cases hk : k = n.key
    · simp [set_search, get_search, hk]
    · simp [set_search, get_search, hk, ih]

theorem getD_set (array : List (List shash_node_t)) (i j : Nat) (chain : List shash_node_t)
    (hi : i < array.length) :
    (array.set i chain).getD j [] = if i = j then chain else array.getD j [] := by
  simp only [List.getD_eq_getElem?_getD, List.getElem?_set]
  by_cases h : i = j
  · subst h
    simp [hi]
  · simp [h]

/-- The three ways a call of `shash_table_set` ends: failure with the table
untouched, the value of an existing node replaced, a new node put at the head
of its bucket. -/
theorem set_cases (a : set_alloc) (ht : Option shash_table_t) (key value : Option String) :
    shash_table_set a ht key value = (0, ht) ∨
    (∃ t k v chain, ht = some t ∧ key = some k ∧ value = some v ∧ k ≠ "" ∧
      set_search k v (t.array.getD (key_index k t.size) []) = some chain ∧
      shash_table_set a ht key value =
        (1, some ⟨t.size, t.array.set (key_index k t.size) chain⟩)) ∨
    (∃ t k v, ht = some t ∧ key = some k ∧ value = some v ∧ k ≠ "" ∧
      set_search k v (t.array.getD (key_index k t.size) []) = none ∧
      shash_table_set a ht key value =
        (1, some ⟨t.size, t.array.set (key_index k t.size)
          (⟨k, v⟩ :: t.array.getD (key_index k t.size) [])⟩)) := by
  cases ht with
  | none => left; simp [shash_table_set]
  | some t =>
  cases key with
  | none => left; simp [shash_table_set]
  | some k =>
  cases value with
  | none => left; simp [shash_table_set]
  | some v =>
  by_cases hk : k = ""
  · left; simp [shash_table_set, hk]
  cases hv : a.valueCpy with
  | false => left; simp [shash_table_set, hk, strdup, hv]
  | true =>
  cases hs : set_search k v (t.array.getD (key_index k t.size) []) with
  | some chain =>
    right; left
    exact ⟨t, k, v, chain, rfl, rfl, rfl, hk, hs, by simp only [shash_table_set, hk, strdup, hv, hs, if_false, if_true]⟩
  | none =>
  cases hn : a.node with
  | false => left; simp only [shash_table_set, hk, strdup, hv, hs, hn, if_false, if_true, Bool.not_false]
  | true =>
  cases hc : a.keyCpy with
  | false => left; simp only [shash_table_set, hk, strdup, hv, hs, hn, hc, if_false, if_true, Bool.not_true, Bool.false_eq_true]
  | true =>
    right; right
    exact ⟨t, k, v, rfl, rfl, rfl, hk, hs, by simp only [shash_table_set, hk, strdup, hv, hs, hn, hc, if_false, if_true, Bool.not_true, Bool.false_eq_true]⟩

theorem set_result (a : set_alloc) (ht : Option shash_table_t) (key value : Option String) :
    (shash_table_set a ht key value).1 = 1 ∨
      ((shash_table_set a ht key value).1 = 0 ∧ (shash_table_set a ht key value).2 = ht) := by
  rcases set_cases a ht key value with h | ⟨t, k, v, chain, -, -, -, -, -, h⟩ |
    ⟨t, k, v, -, -, -, -, -, h⟩ <;> simp [h]

theorem set_ok_result (t : shash_table_t) (k v : String) (hk : k ≠ "") :
    (shash_table_set set_ok (some t) (some k) (some v)).1 = 1 := by
  cases hs : set_search k v (t.array.getD (key_index k t.size) []) <;>
    simp only [shash_table_set, hk, strdup, set_ok, hs, if_false, if_true, Bool.not_true,
      Bool.false_eq_true]

theorem set_live (a : set_alloc) (t : shash_table_t) (key value : Option String)
    (ht : live t) :
    ∃ t1, (shash_table_set a (some t) key value).2 = some t1 ∧ live t1 ∧ t1.size = t.size := by
  rcases set_cases a (some t) key value with h | ⟨t0, k, v, chain, h0, -, -, -, -, h⟩ |
    ⟨t0, k, v, h0, -, -, -, -, h⟩
  · exact ⟨t, by rw [h], ht, rfl⟩
  · cases h0
    exact ⟨⟨t.size, t.array.set (key_index k t.size) chain⟩, by rw [h],
      ⟨ht.1, by simpa using ht.2⟩, rfl⟩
  · cases h0
    exact ⟨⟨t.size, t.array.set (key_index k t.size)
      (⟨k, v⟩ :: t.array.getD (key_index k t.size) [])⟩, by rw [h],
      ⟨ht.1, by simpa using ht.2⟩, rfl⟩

theorem get_set (a : set_alloc) (t : shash_table_t) (ht : live t)
    (key value : Option String) (k1 : String) :
    shash_table_get (shash_table_set a (some t) key value).2 (some k1) =
      if (shash_table_set a (some t) key value).1 = 1 ∧ key = some k1 then value
      else shash_table_get (some t) (some k1) := by
  have hidx : ∀ k : String, key_index k t.size < t.array.length := fun k => by
    rw [ht.2]; exact key_index_lt k t.size ht.1
  rcases set_cases a (some t) key value with h | ⟨t0, k, v, chain, h0, hkey, hval, hk, hs, h⟩ |
    ⟨t0, k, v, h0, hkey, hval, hk, hs, h⟩
  · rw [h]; simp
  · cases h0; subst hkey; subst hval
    rw [h]
    by_cases hk1 : k1 = ""
    · subst hk1
      simp [shash_table_get, hk]
    · simp only [shash_table_get, if_neg hk1, getD_set _ _ _ _ (hidx k)]
      by_cases hkk : k = k1
      · subst hkk
        simp [get_search_set_search _ _ _ _ hs]
      · have hkk1 : ¬ k1 = k := fun e => hkk e.symm
        by_cases hi : key_index k t.size = key_index k1 t.size
        · rw [if_pos hi, get_search_set_search _ _ _ _ hs, if_neg hkk1, hi]
          simp [hkk]
        · simp [hi, hkk]
  · cases h0; subst hkey; subst hval
    rw [h]
    by_cases hk1 : k1 = ""
    · subst hk1
      simp [shash_table_get, hk]
    · simp only [shash_table_get, if_neg hk1, getD_set _ _ _ _ (hidx k)]
      by_cases hkk : k = k1
      · subst hkk
        simp [get_search]
      · have hkk1 : ¬ k1 = k := fun e => hkk e.symm
        by_cases hi : key_index k t.size = key_index k1 t.size
        · rw [if_pos hi]
          simp only [get_search, if_neg hkk1, hi]
          simp [hkk]
        · simp [hi, hkk]

theorem set_success_args (a : set_alloc) (ht : Option shash_table_t) (key value : Option String)
    (h : (shash_table_set a ht key value).1 = 1) :
    ∃ t k v, ht = some t ∧ key = some k ∧ value = some v ∧ k ≠ "" := by
  rcases set_cases a ht key value with h0 | ⟨t, k, v, chain, h1, h2, h3, h4, -, -⟩ |
    ⟨t, k, v, h1, h2, h3, h4, -, -⟩
  · rw [h0] at h; simp at h
  · exact ⟨t, k, v, h1, h2, h3, h4⟩
  · exact ⟨t, k, v, h1, h2, h3, h4⟩

theorem create_live (a : create_alloc) (C : Nat) (t : shash_table_t)
    (h : shash_table_create a C = some t) :
    live t ∧ t.size = C ∧ t.array = List.replicate C [] := by
  unfold shash_table_create at h
  split at h
  · simp at h
  · rename_i hC
    split at h
    · simp at h
    · split at h
      · simp at h
      · cases h
        exact ⟨⟨Nat.pos_of_ne_zero hC, by simp⟩, rfl, rfl⟩

theorem create_ok_some (C : Nat) (hC : 0 < C) :
    shash_table_create create_ok C = some ⟨C, List.replicate C []⟩ := by
  have : C ≠ 0 := Nat.pos_iff_ne_zero.mp hC
  simp [shash_table_create, create_ok, this]

theorem get_replicate (C : Nat) (key : Option String) :
    shash_table_get (some ⟨C, List.replicate C []⟩) key = none := by
  cases key with
  | none => rfl
  | some k =>
    simp only [shash_table_get]
    split
    · rfl
    · have : (List.replicate C ([] : List shash_node_t)).getD (key_index k C) [] = [] := by
        simp only [List.getD_eq_getElem?_getD, List.getElem?_replicate]
        split <;> rfl
      rw [this]; rfl

/-- A run of calls on a live table, seen from one key: the calls on other
keys leave its lookup alone, and the last successful call on it decides the
lookup. -/
theorem run_sets_get (k : String) (calls : List set_call) :
    ∀ t : shash_table_t, live t → (∀ r ∈ (run_sets (some t) calls).1, r = 1) →
      (∃ t1, (run_sets (some t) calls).2 = some t1 ∧ live t1 ∧ t1.size = t.size) ∧
      ((∀ c ∈ calls, c.key ≠ some k) →
        shash_table_get (run_sets (some t) calls).2 (some k) = shash_table_get (some t) (some k)) ∧
      (∀ pre c post, calls = pre ++ c :: post → c.key = some k →
        (∀ d ∈ post, d.key ≠ some k) →
        shash_table_get (run_sets (some t) calls).2 (some k) = c.value) := by
  induction calls with
  | nil =>
    intro t ht _
    refine ⟨⟨t, rfl, ht, rfl⟩, fun _ => rfl, ?_⟩
    intro pre c post h
    simp at h
  | cons c0 cs ih =>
    intro t ht hs
    obtain ⟨t1, h1, hl1, hsz1⟩ := set_live c0.a t c0.key c0.value ht
    have hr0 : (shash_table_set c0.a (some t) c0.key c0.value).1 = 1 :=
      hs _ (by simp [run_sets])
    have hrs : ∀ r ∈ (run_sets (some t1) cs).1, r = 1 := by
      intro r hr
      apply hs
      simp only [run_sets, h1, List.mem_cons]
      exact Or.inr hr
    obtain ⟨hA, hB, hC⟩ := ih t1 hl1 hrs
    have hrun : (run_sets (some t) (c0 :: cs)).2 = (run_sets (some t1) cs).2 := by
      simp only [run_sets, h1]
    have hget := get_set c0.a t ht c0.key c0.value k
    rw [h1] at hget
    refine ⟨?_, ?_, ?_⟩
    · obtain ⟨t2, h2, hl2, hsz2⟩ := hA
      exact ⟨t2, by rw [hrun, h2], hl2, by rw [hsz2, hsz1]⟩
    · intro hne
      rw [hrun, hB (fun c hc => hne c (List.mem_cons_of_mem _ hc)), hget]
      have : c0.key ≠ some k := hne c0 (List.mem_cons_self _ _)
      simp [this]
    · intro pre c post hcalls hkey hpost
      rw [hrun]
      cases pre with
      | nil =>
        simp only [List.nil_append, List.cons.injEq] at hcalls
        obtain ⟨rfl, rfl⟩ := hcalls
        rw [hB hpost, hget, if_pos ⟨hr0, hkey⟩]
      | cons p pre1 =>
        simp only [List.cons_append, List.cons.injEq] at hcalls
        exact hC pre1 c post hcalls.2 hkey hpost

theorem run_sets_success_value (calls : List set_call) :
    ∀ ht : Option shash_table_t, (∀ r ∈ (run_sets ht calls).1, r = 1) →
      ∀ c ∈ calls, c.value ≠ none := by
  induction calls with
  | nil => intro _ _ c hc; simp at hc
  | cons c0 cs ih =>
    intro ht hs c hc
    rcases List.mem_cons.mp hc with rfl | hc
    · have hr0 : (shash_table_set c.a ht c.key c.value).1 = 1 := hs _ (by simp [run_sets])
      obtain ⟨t, k, v, -, -, hv, -⟩ := set_success_args _ _ _ _ hr0
      simp [hv]
    · apply ih (shash_table_set c0.a ht c0.key c0.value).2 _ c hc
      intro r hr
      apply hs
      simp only [run_sets, List.mem_cons]
      exact Or.inr hr

/-- C1. For every capacity `C > 0` and every sequence of successful
`shash_table_set` calls applied to `shash_table_create(C)`, looking up a
non-empty key `k` returns the value of the last call of the sequence whose key
equals `k` (a present value, so a found result), and not-found when no call
of the sequence used `k`; no condition on the order of the calls or on the
buckets the keys fall in. -/
theorem get_returns_last_set (C : Nat) (hC : 0 < C) (calls : List set_call)
    (hsucc : ∀ r ∈ (run_sets (shash_table_create create_ok C) calls).1, r = 1)
    (k : String) (hk : k ≠ "") :
    (∀ pre c post, calls = pre ++ c :: post → c.key = some k →
      (∀ d ∈ post, d.key ≠ some k) →
      shash_table_get (run_sets (shash_table_create create_ok C) calls).2 (some k) = c.value ∧
        c.value ≠ none) ∧
    ((∀ c ∈ calls, c.key ≠ some k) →
      shash_table_get (run_sets (shash_table_create create_ok C) calls).2 (some k) = none) := by
  have _ := hk
  rw [create_ok_some C hC] at hsucc ⊢
  have hl : live (⟨C, List.replicate C []⟩ : shash_table_t) := ⟨hC, by simp⟩
  obtain ⟨-, hB, hA⟩ := run_sets_get k calls _ hl hsucc
  refine ⟨?_, ?_⟩
  · intro pre c post hcalls hkey hpost
    refine ⟨hA pre c post hcalls hkey hpost, ?_⟩
    exact run_sets_success_value calls _ hsucc c (by rw [hcalls]; simp)
  · intro hne
    rw [hB hne]
    exact get_replicate C (some k)

/-- C1, on the scenario `t = create(5); set(t,"a","1"); set(t,"b","2")`:
`get(t,"a")` is `"1"` and `get(t,"z")` is not-found. -/
theorem get_returns_last_set_witness :
    shash_table_get (run_sets (shash_table_create create_ok 5) scenario_calls).2 (some "a")
        = some "1" ∧
      shash_table_get (run_sets (shash_table_create create_ok 5) scenario_calls).2 (some "z")
        = none :=
  ⟨((get_returns_last_set 5 (by decide) scenario_calls (by decide) "a" (by decide)).1
      [] ⟨set_ok, some "a", some "1"⟩ [⟨set_ok, some "b", some "2"⟩] rfl rfl (by decide)).1,
   (get_returns_last_set 5 (by decide) scenario_calls (by decide) "z" (by decide)).2
      (by decide)⟩

/-- C2. On a live table, for a non-empty key `k` and values `v`, `v2`
(allocation succeeding): `shash_table_set(t, k, v)` followed by
`shash_table_set(t, k, v2)` both return 1, and `shash_table_get(t, k)` then
returns `v2`. -/
theorem set_twice_get_second (t : shash_table_t) (ht : live t) (k : String) (hk : k ≠ "")
    (v v2 : String) :
    (shash_table_set set_ok (some t) (some k) (some v)).1 = 1 ∧
    (shash_table_set set_ok (shash_table_set set_ok (some t) (some k) (some v)).2
      (some k) (some v2)).1 = 1 ∧
    shash_table_get (shash_table_set set_ok (shash_table_set set_ok (some t) (some k) (some v)).2
      (some k) (some v2)).2 (some k) = some v2 := by
  obtain ⟨t1, h1, hl1, -⟩ := set_live set_ok t (some k) (some v) ht
  rw [h1]
  refine ⟨set_ok_result t k v hk, set_ok_result t1 k v2 hk, ?_⟩
  rw [get_set set_ok t1 hl1 (some k) (some v2) k, if_pos ⟨set_ok_result t1 k v2 hk, rfl⟩]

/-- C2 on the table holding `("k", "old")`: two sets of `"k"` end with the
second value. -/
theorem set_twice_get_second_witness :
    live table_k_old ∧ "k" ≠ "" ∧
    shash_table_get (shash_table_set set_ok
      (shash_table_set set_ok (some table_k_old) (some "k") (some "v")).2
      (some "k") (some "v2")).2 (some "k") = some "v2" :=
  ⟨by decide, by decide,
    (set_twice_get_second table_k_old (by decide) "k" (by decide) "v" "v2").2.2⟩

/-- C3. For every capacity `C > 0` (allocation succeeding),
`shash_table_create(C)` returns a table on which `shash_table_get` returns
`NULL` for every key, absent and empty keys included. -/
theorem create_get_not_found (C : Nat) (hC : 0 < C) :
    ∃ t, shash_table_create create_ok C = some t ∧
      ∀ key : Option String, shash_table_get (some t) key = none :=
  ⟨⟨C, List.replicate C []⟩, create_ok_some C hC, fun key => get_replicate C key⟩

/-- C3 at capacity 5. -/
theorem create_get_not_found_witness :
    ∃ t, shash_table_create create_ok 5 = some t ∧
      ∀ key : Option String, shash_table_get (some t) key = none :=
  create_get_not_found 5 (by decide)

/-- C4. On a live table, for keys `k1 ≠ k2` and a value `v`, whatever the
allocations of the call do, `shash_table_get(t, k2)` returns the same after
`shash_table_set(t, k1, v)` as before it; nothing is asked of the bucket
indices of `k1` and `k2`, which may be equal. -/
theorem set_other_key_get_same (a : set_alloc) (t : shash_table_t) (ht : live t)
    (k1 k2 : String) (hk1 : k1 ≠ "") (hk2 : k2 ≠ "") (hne : k1 ≠ k2) (v : String) :
    shash_table_get (shash_table_set a (some t) (some k1) (some v)).2 (some k2) =
      shash_table_get (some t) (some k2) := by
  have _ := hk1
  have _ := hk2
  rw [get_set a t ht (some k1) (some v) k2]
  have : ¬ (some k1 = some k2) := fun e => hne (Option.some.inj e)
  simp [this]

/-- C4 on a table of capacity 1, where all keys share bucket 0: setting
`"j"` leaves the lookup of `"k"` at `"old"`. -/
theorem set_other_key_get_same_witness :
    key_index "j" table_k_old.size = key_index "k" table_k_old.size ∧
    shash_table_get (shash_table_set set_ok (some table_k_old) (some "j") (some "new")).2
      (some "k") = some "old" :=
  ⟨by decide,
    (set_other_key_get_same set_ok table_k_old (by decide) "j" "k" (by decide) (by decide)
      (by decide) "new").trans (by decide)⟩

/-- C8. With allocation succeeding, `shash_table_create(capacity)` returns
`NULL` exactly when `capacity` is 0; and a table it returns (under any
allocation outcome) records `size = capacity`, has exactly `capacity`
buckets, and every bucket is empty. -/
theorem create_fails_iff_zero (capacity : Nat) :
    (shash_table_create create_ok capacity = none ↔ capacity = 0) ∧
    ∀ (a : create_alloc) (t : shash_table_t), shash_table_create a capacity = some t →
      t.size = capacity ∧ t.array.length = capacity ∧ ∀ chain ∈ t.array, chain = [] := by
  refine ⟨?_, ?_⟩
  · constructor
    · intro h
      by_contra h0
      rw [create_ok_some capacity (Nat.pos_of_ne_zero h0)] at h
      simp at h
    · intro h
      simp [shash_table_create, h]
  · intro a t h
    obtain ⟨hl, hs, ha⟩ := create_live a capacity t h
    refine ⟨hs, by rw [hl.2, hs], ?_⟩
    intro chain hc
    rw [ha] at hc
    exact (List.mem_replicate.mp hc).2

/-- C8 at capacity 3. -/
theorem create_fails_iff_zero_witness :
    shash_table_create create_ok 3 = some ⟨3, [[], [], []]⟩ ∧
    (⟨3, [[], [], []]⟩ : shash_table_t).size = 3 ∧
    (⟨3, [[], [], []]⟩ : shash_table_t).array.length = 3 ∧
    ∀ chain ∈ (⟨3, [[], [], []]⟩ : shash_table_t).array, chain = [] :=
  ⟨by decide, (create_fails_iff_zero 3).2 create_ok ⟨3, [[], [], []]⟩ (by decide)⟩

/-- C9. `shash_table_set` returns 0 whenever the table is absent, the key is
absent or empty, or the value is absent; `shash_table_get` returns `NULL`
whenever the table is absent or the key is absent or empty; and with
allocation succeeding `shash_table_set` returns 1 in every other case
(table, non-empty key and value all present). -/
theorem set_get_invalid_arguments :
    (∀ (a : set_alloc) (ht : Option shash_table_t) (key value : Option String),
      (ht = none ∨ key = none ∨ key = some "" ∨ value = none) →
        (shash_table_set a ht key value).1 = 0) ∧
    (∀ (ht : Option shash_table_t) (key : Option String),
      (ht = none ∨ key = none ∨ key = some "") → shash_table_get ht key = none) ∧
    (∀ (t : shash_table_t) (k v : String), k ≠ "" →
      (shash_table_set set_ok (some t) (some k) (some v)).1 = 1) := by
  refine ⟨?_, ?_, fun t k v hk => set_ok_result t k v hk⟩
  · intro a ht key value h
    rcases h with h | h | h | h
    · subst h; simp [shash_table_set]
    · subst h; cases ht <;> simp [shash_table_set]
    · subst h; cases ht <;> cases value <;> simp [shash_table_set]
    · subst h; cases ht <;> cases key <;> simp [shash_table_set]
  · intro ht key h
    rcases h with h | h | h
    · subst h; simp [shash_table_get]
    · subst h; cases ht <;> simp [shash_table_get]
    · subst h; cases ht <;> simp [shash_table_get]

/-- C9 on the table holding `("k", "old")`: an empty key is refused by both
functions, a non-empty one is accepted by `shash_table_set`. -/
theorem set_get_invalid_arguments_witness :
    (shash_table_set set_ok (some table_k_old) (some "") (some "v")).1 = 0 ∧
    shash_table_get (some table_k_old) (some "") = none ∧
    (shash_table_set set_ok (some table_k_old) (some "k") (some "v")).1 = 1 :=
  ⟨set_get_invalid_arguments.1 set_ok (some table_k_old) (some "") (some "v")
      (Or.inr (Or.inr (Or.inl rfl))),
    set_get_invalid_arguments.2.1 (some table_k_old) (some "") (Or.inr (Or.inr rfl)),
    set_get_invalid_arguments.2.2 table_k_old "k" "v" (by decide)⟩

/-- C10. On a live table, for a non-empty key `k` (allocation succeeding),
`shash_table_set(t, k, "")` returns 1 and `shash_table_get(t, k)` then
returns the empty string, a found result that differs from `NULL`. -/
theorem set_empty_value_found (t : shash_table_t) (ht : live t) (k : String) (hk : k ≠ "") :
    (shash_table_set set_ok (some t) (some k) (some "")).1 = 1 ∧
    shash_table_get (shash_table_set set_ok (some t) (some k) (some "")).2 (some k) = some "" ∧
    (some "" : Option String) ≠ none := by
  refine ⟨set_ok_result t k "" hk, ?_, by simp⟩
  rw [get_set set_ok t ht (some k) (some "") k, if_pos ⟨set_ok_result t k "" hk, rfl⟩]

/-- C10 on the table holding `("k", "old")`, for the key `"k"` and for a new
key `"j"`. -/
theorem set_empty_value_found_witness :
    shash_table_get (shash_table_set set_ok (some table_k_old) (some "k") (some "")).2 (some "k")
      = some "" ∧
    shash_table_get (shash_table_set set_ok (some table_k_old) (some "j") (some "")).2 (some "j")
      = some "" :=
  ⟨(set_empty_value_found table_k_old (by decide) "k" (by decide)).2.1,
    (set_empty_value_found table_k_old (by decide) "j" (by decide)).2.1⟩

theorem sep_concat_append (first : Bool) (l1 l2 : List String) :
    sep_concat first (l1 ++ l2) = sep_concat first l1 ++ sep_concat (first && l1.isEmpty) l2 := by
  induction l1 generalizing first with
  | nil => simp [sep_concat]
  | cons s rest ih =>
    cases first
    · simp [sep_concat, ih, String.append_assoc]
    · simp [sep_concat, ih, String.append_assoc]

theorem intercalate_go_eq (acc : String) (l : List String) :
    String.intercalate.go acc ", " l = acc ++ sep_concat false l := by
  induction l generalizing acc with
  | nil => simp [String.intercalate.go, sep_concat]
  | cons s rest ih =>
    simp [String.intercalate.go, sep_concat, ih, String.append_assoc]

theorem intercalate_eq (l : List String) : ", ".intercalate l = sep_concat true l := by
  cases l with
  | nil => simp [String.intercalate, sep_concat]
  | cons s rest => simp [String.intercalate, sep_concat, intercalate_go_eq]

theorem print_chain_eq (chain : List shash_node_t) (out : String) (first : Bool) :
    print_chain chain (out, first) =
      (out ++ sep_concat first (chain.map render), first && chain.isEmpty) := by
  induction chain generalizing out first with
  | nil => simp [print_chain, sep_concat]
  | cons n rest ih =>
    cases first
    · simp [print_chain, ih, sep_concat, render, String.append_assoc]
    · simp [print_chain, ih, sep_concat, render, String.append_assoc]

theorem print_buckets_eq (t : shash_table_t) (idxs : List Nat) (out : String) (first : Bool) :
    idxs.foldl (fun st idx => print_chain (t.array.getD idx []) st) (out, first) =
      (out ++ sep_concat first ((idxs.flatMap (fun i => t.array.getD i [])).map render),
        first && (idxs.flatMap (fun i => t.array.getD i [])).isEmpty) := by
  induction idxs generalizing out first with
  | nil => simp [sep_concat]
  | cons i rest ih =>
    rw [List.foldl_cons, print_chain_eq, ih, List.flatMap_cons, List.map_append,
      sep_concat_append, String.append_assoc]
    cases t.array.getD i [] <;> simp

theorem print_eq (t : shash_table_t) :
    shash_table_print (some t) =
      "\x7b" ++ ", ".intercalate ((entries t).map render) ++ "\x7d\n" := by
  simp only [shash_table_print, print_buckets_eq, intercalate_eq, entries]

/-- C7. For a present table, `shash_table_print` writes exactly an opening
brace, the entries rendered as `'key': 'value'` and joined by `", "`, a
closing brace and a newline, the entries being taken bucket by bucket from
index 0 to `size - 1` and head to tail within a bucket; with no entries the
text is the two braces and a newline. -/
theorem print_format (t : shash_table_t) :
    shash_table_print (some t) =
      "\x7b" ++ ", ".intercalate ((entries t).map render) ++ "\x7d\n" ∧
    (entries t = [] → shash_table_print (some t) = "\x7b\x7d\n") := by
  refine ⟨print_eq t, fun h => ?_⟩
  rw [print_eq t, h]
  decide

/-- C7 on a table with a chain of two entries, an empty bucket and a chain
of one entry, and on a table with no entries. -/
theorem print_format_witness :
    shash_table_print (some table_three) = "\x7b'c': '3', 'f': '', 'b': '2'\x7d\n" ∧
    shash_table_print (some ⟨2, [[], []]⟩) = "\x7b\x7d\n" :=
  ⟨(print_format table_three).1.trans (by decide), (print_format ⟨2, [[], []]⟩).2 (by decide)⟩

theorem array_split (array : List (List shash_node_t)) (i : Nat) (hi : i < array.length) :
    array = array.take i ++ array.getD i [] :: array.drop (i + 1) ∧
    ∀ c, array.set i c = array.take i ++ c :: array.drop (i + 1) := by
  constructor
  · rw [List.getD_eq_getElem _ _ hi, List.getElem_cons_drop, List.take_append_drop]
  · intro c
    rw [List.set_eq_take_append_cons_drop, if_pos hi]

theorem flatten_old (array : List (List shash_node_t)) (i : Nat) (hi : i < array.length) :
    array.flatten =
      (array.take i).flatten ++ (array.getD i [] ++ (array.drop (i + 1)).flatten) := by
  conv_lhs => rw [(array_split array i hi).1]
  rw [List.flatten_append, List.flatten_cons]

theorem flatten_set (array : List (List shash_node_t)) (i : Nat) (hi : i < array.length)
    (c : List shash_node_t) :
    (array.set i c).flatten = (array.take i).flatten ++ (c ++ (array.drop (i + 1)).flatten) := by
  rw [(array_split array i hi).2 c, List.flatten_append, List.flatten_cons]

theorem map_getD_range (l : List (List shash_node_t)) :
    (List.range l.length).map (fun i => l.getD i []) = l := by
  apply List.ext_getElem
  · simp
  · intro n h1 h2
    simp [List.getElem?_eq_getElem h2]

theorem entries_live (t : shash_table_t) (h : t.array.length = t.size) :
    entries t = t.array.flatten := by
  unfold entries
  rw [← h]
  conv_rhs => rw [← map_getD_range t.array]
  rfl

theorem set_search_keys (k v : String) (chain chain1 : List shash_node_t)
    (h : set_search k v chain = some chain1) :
    chain1.map shash_node_t.key = chain.map shash_node_t.key := by
  induction chain generalizing chain1 with
  | nil => simp [set_search] at h
  | cons n rest ih =>
    simp only [set_search] at h
    split at h
    · cases h; rfl
    · cases hr : set_search k v rest with
      | none => simp [hr] at h
      | some rest1 =>
        simp [hr] at h
        subst h
        simp [ih rest1 hr]

theorem get_search_none (k : String) (chain : List shash_node_t) :
    get_search k chain = none ↔ ∀ n ∈ chain, n.key ≠ k := by
  induction chain with
  | nil => simp [get_search]
  | cons n rest ih =>
    by_cases hk : k = n.key
    · simp [get_search, hk]
    · have : ¬ n.key = k := fun e => hk e.symm
      simp [get_search, hk, ih, this]

theorem mem_getD (array : List (List shash_node_t)) (i : Nat) (hi : i < array.length)
    (n : shash_node_t) (h : n ∈ array.getD i []) : n ∈ array.flatten := by
  rw [List.getD_eq_getElem _ _ hi] at h
  exact List.mem_flatten.mpr ⟨array[i], List.getElem_mem _, h⟩

theorem mem_flatten_getD (array : List (List shash_node_t)) (n : shash_node_t)
    (h : n ∈ array.flatten) : ∃ i, i < array.length ∧ n ∈ array.getD i [] := by
  obtain ⟨chain, hc, hn⟩ := List.mem_flatten.mp h
  obtain ⟨i, hi, rfl⟩ := List.getElem_of_mem hc
  exact ⟨i, hi, by rw [List.getD_eq_getElem _ _ hi]; exact hn⟩

/-- One call of `shash_table_set` on a live table keeps every entry in the
bucket of its key and keeps the keys of the table distinct. -/
theorem set_preserves (a : set_alloc) (t : shash_table_t) (key value : Option String)
    (t1 : shash_table_t) (hl : live t) (hb : bucket_indexed t) (hu : keys_unique t)
    (h : (shash_table_set a (some t) key value).2 = some t1) :
    bucket_indexed t1 ∧ keys_unique t1 := by
  have hidx : ∀ k : String, key_index k t.size < t.array.length := fun k => by
    rw [hl.2]; exact key_index_lt k t.size hl.1
  rcases set_cases a (some t) key value with h0 | ⟨t0, k, v, chain, h0, -, -, hk, hs, h1⟩ |
    ⟨t0, k, v, h0, -, -, hk, hs, h1⟩
  · rw [h0] at h
    cases h
    exact ⟨hb, hu⟩
  · cases h0
    rw [h1] at h
    cases h
    have hkeys := set_search_keys _ _ _ _ hs
    constructor
    · intro i hi n hn
      simp only [List.length_set] at hi
      simp only [getD_set _ _ _ _ (hidx k)] at hn
      by_cases hik : key_index k t.size = i
      · rw [if_pos hik] at hn
        have : n.key ∈ chain.map shash_node_t.key := List.mem_map_of_mem _ hn
        rw [hkeys] at this
        obtain ⟨n0, hn0, hk0⟩ := List.mem_map.mp this
        show key_index n.key t.size = i
        rw [← hk0, ← hik]
        exact hb _ (hidx k) n0 hn0
      · rw [if_neg hik] at hn
        exact hb i hi n hn
    · unfold keys_unique at hu ⊢
      simp only [flatten_set _ _ (hidx k), List.map_append, hkeys]
      rw [flatten_old _ _ (hidx k)] at hu
      simpa only [List.map_append] using hu
  · cases h0
    rw [h1] at h
    cases h
    constructor
    · intro i hi n hn
      simp only [List.length_set] at hi
      simp only [getD_set _ _ _ _ (hidx k)] at hn
      by_cases hik : key_index k t.size = i
      · rw [if_pos hik] at hn
        rcases List.mem_cons.mp hn with rfl | hn
        · exact hik
        · show key_index n.key t.size = i
          rw [← hik]
          exact hb _ (hidx k) n hn
      · rw [if_neg hik] at hn
        exact hb i hi n hn
    · unfold keys_unique at hu ⊢
      have hfresh : k ∉ t.array.flatten.map shash_node_t.key := by
        intro hmem
        obtain ⟨n, hn, hnk⟩ := List.mem_map.mp hmem
        obtain ⟨i, hi, hni⟩ := mem_flatten_getD _ _ hn
        have hik : key_index k t.size = i := by rw [← hnk]; exact hb i hi n hni
        rw [← hik] at hni
        exact (get_search_none k _).mp ((set_search_none k v _).mp hs) n hni hnk
      have hperm : ((t.array.set (key_index k t.size)
          (⟨k, v⟩ :: t.array.getD (key_index k t.size) [])).flatten.map shash_node_t.key).Perm
          (k :: t.array.flatten.map shash_node_t.key) := by
        rw [flatten_set _ _ (hidx k), flatten_old t.array _ (hidx k)]
        simp only [List.map_append, List.cons_append, List.map_cons]
        exact List.perm_middle
      exact hperm.nodup_iff.mpr (List.nodup_cons.mpr ⟨hfresh, hu⟩)

theorem reachable_live (t : shash_table_t) (h : reachable t) :
    live t ∧ bucket_indexed t ∧ keys_unique t := by
  induction h with
  | create a size t hc =>
    obtain ⟨hl, -, ha⟩ := create_live a size t hc
    refine ⟨hl, ?_, ?_⟩
    · intro i _ n hn
      rw [ha] at hn
      simp only [List.getD_eq_getElem?_getD, List.getElem?_replicate] at hn
      split at hn <;> simp at hn
    · unfold keys_unique
      rw [ha]
      have : (List.replicate size ([] : List shash_node_t)).flatten = [] := by
        induction size with
        | zero => rfl
        | succ m ih => simp [List.replicate_succ, ih]
      rw [this]
      exact List.nodup_nil
  | set a t key value t1 _ hs ih =>
    obtain ⟨hl, hb, hu⟩ := ih
    obtain ⟨t2, h2, hl2, -⟩ := set_live a t key value hl
    have h21 : t2 = t1 := by
      rw [h2] at hs
      exact Option.some.inj hs
    subst h21
    exact ⟨hl2, set_preserves a t key value t2 hl hb hu h2⟩

/-- C5. In every table reachable from `shash_table_create` by
`shash_table_set` calls, every entry stored in bucket `i` has a key with
`hash(key) mod capacity = i`, and no key occurs in more than one entry of the
whole table; and a call of `shash_table_set` on a live table with these two
properties, whatever its arguments and allocation outcomes, gives a table
with them. -/
theorem table_invariant :
    (∀ t, reachable t → bucket_indexed t ∧ keys_unique t) ∧
    (∀ (a : set_alloc) (t : shash_table_t) (key value : Option String) (t1 : shash_table_t),
      live t → bucket_indexed t → keys_unique t →
      (shash_table_set a (some t) key value).2 = some t1 →
      bucket_indexed t1 ∧ keys_unique t1) :=
  ⟨fun t h => (reachable_live t h).2,
    fun a t key value t1 hl hb hu h => set_preserves a t key value t1 hl hb hu h⟩

/-- C5 on the table created with capacity 2 and then set with `"a"`, and
on a new key set into a table with one entry in each of its two buckets. -/
theorem table_invariant_witness :
    (bucket_indexed ⟨2, [[⟨"a", "1"⟩], []]⟩ ∧ keys_unique ⟨2, [[⟨"a", "1"⟩], []]⟩) ∧
    (bucket_indexed ⟨2, [[⟨"a", "1"⟩], [⟨"d", "4"⟩, ⟨"b", "2"⟩]]⟩ ∧
      keys_unique ⟨2, [[⟨"a", "1"⟩], [⟨"d", "4"⟩, ⟨"b", "2"⟩]]⟩) :=
  ⟨table_invariant.1 _
      (reachable.set set_ok ⟨2, [[], []]⟩ (some "a") (some "1") _
        (reachable.create create_ok 2 _ (by decide)) (by decide)),
    table_invariant.2 set_ok table_two (some "d") (some "4") _
      (by decide) (by decide) (by decide) (by decide)⟩

theorem set_new_entries (t : shash_table_t) (hl : live t) (k v : String) (hk : k ≠ "")
    (hfresh : ∀ n ∈ t.array.flatten, n.key ≠ k) :
    ∃ t1, shash_table_set set_ok (some t) (some k) (some v) = (1, some t1) ∧ live t1 ∧
      t1.array.flatten.Perm (⟨k, v⟩ :: t.array.flatten) := by
  have hidx : key_index k t.size < t.array.length := by
    rw [hl.2]; exact key_index_lt k t.size hl.1
  have hs : set_search k v (t.array.getD (key_index k t.size) []) = none := by
    rw [set_search_none, get_search_none]
    intro n hn
    exact hfresh n (mem_getD _ _ hidx n hn)
  refine ⟨⟨t.size, t.array.set (key_index k t.size)
    (⟨k, v⟩ :: t.array.getD (key_index k t.size) [])⟩, ?_, ⟨hl.1, by simpa using hl.2⟩, ?_⟩
  · simp only [shash_table_set, hk, strdup, set_ok, hs, if_false, if_true, Bool.not_true,
      Bool.false_eq_true]
  · show (t.array.set (key_index k t.size)
      (⟨k, v⟩ :: t.array.getD (key_index k t.size) [])).flatten.Perm _
    rw [flatten_set _ _ hidx]
    conv_rhs => rw [flatten_old t.array _ hidx]
    simp only [List.cons_append]
    exact List.perm_middle

/-- Setting pairs with distinct non-empty keys that the table does not hold
yet: every call returns 1 and the entries of the table grow by exactly these
pairs. -/
theorem run_sets_new (pairs : List (String × String)) :
    ∀ t : shash_table_t, live t → (pairs.map Prod.fst).Nodup →
      (∀ p ∈ pairs, p.1 ≠ "") → (∀ p ∈ pairs, ∀ n ∈ t.array.flatten, n.key ≠ p.1) →
      ∃ t1, run_sets (some t) (pairs.map call_of) = (List.replicate pairs.length 1, some t1) ∧
        live t1 ∧ t1.size = t.size ∧
        (t1.array.flatten.map pair_of).Perm (pairs ++ t.array.flatten.map pair_of) := by
  induction pairs with
  | nil =>
    intro t hl _ _ _
    exact ⟨t, rfl, hl, rfl, List.Perm.refl _⟩
  | cons p ps ih =>
    intro t hl hd hne hfresh
    obtain ⟨t1, h1, hl1, hp1⟩ := set_new_entries t hl p.1 p.2 (hne p (List.mem_cons_self _ _))
      (hfresh p (List.mem_cons_self _ _))
    have hsz1 : t1.size = t.size := by
      obtain ⟨t2, h2, -, hsz⟩ := set_live set_ok t (some p.1) (some p.2) hl
      rw [h1] at h2
      cases h2
      exact hsz
    rw [List.map_cons, List.nodup_cons] at hd
    have hfresh1 : ∀ q ∈ ps, ∀ n ∈ t1.array.flatten, n.key ≠ q.1 := by
      intro q hq n hn
      rcases List.mem_cons.mp (hp1.mem_iff.mp hn) with rfl | hn
      · intro e
        exact hd.1 (List.mem_map.mpr ⟨q, hq, e.symm⟩)
      · exact hfresh q (List.mem_cons_of_mem _ hq) n hn
    obtain ⟨t2, h2, hl2, hsz2, hp2⟩ := ih t1 hl1 hd.2
      (fun q hq => hne q (List.mem_cons_of_mem _ hq)) hfresh1
    refine ⟨t2, ?_, hl2, by rw [hsz2, hsz1], ?_⟩
    · simp only [List.map_cons, run_sets, call_of, h1]
      have := h2
      simp only [call_of] at this
      rw [this]
      rfl
    · refine hp2.trans ?_
      have : (t1.array.flatten.map pair_of).Perm (p :: t.array.flatten.map pair_of) := by
        simpa [pair_of] using hp1.map pair_of
      refine (List.Perm.append_left ps this).trans ?_
      exact List.perm_middle

/-- C6. For every capacity `C > 0` and every list of `N` pairs with pairwise
distinct non-empty keys, set in order on `shash_table_create(C)` (allocation
succeeding): every call returns 1, and the sequence of entries that
`shash_table_print` renders has exactly `N` pairs and is a permutation of the
inserted pairs, so each printed key stands with the value inserted for it. -/
theorem print_round_trip (C : Nat) (hC : 0 < C) (pairs : List (String × String))
    (hd : (pairs.map Prod.fst).Nodup) (hne : ∀ p ∈ pairs, p.1 ≠ "") :
    ∃ t, (run_sets (shash_table_create create_ok C) (pairs.map call_of)).2 = some t ∧
      (∀ r ∈ (run_sets (shash_table_create create_ok C) (pairs.map call_of)).1, r = 1) ∧
      (entries t).length = pairs.length ∧
      ((entries t).map pair_of).Perm pairs ∧
      shash_table_print (some t) =
        "\x7b" ++ ", ".intercalate ((entries t).map render) ++ "\x7d\n" := by
  rw [create_ok_some C hC]
  have hl : live (⟨C, List.replicate C []⟩ : shash_table_t) := ⟨hC, by simp⟩
  have hempty : (List.replicate C ([] : List shash_node_t)).flatten = [] := by
    clear hl hC
    induction C with
    | zero => rfl
    | succ m ih => simp [List.replicate_succ, ih]
  obtain ⟨t1, h1, hl1, -, hp1⟩ := run_sets_new pairs _ hl hd hne
    (by intro p _ n hn; rw [hempty] at hn; simp at hn)
  rw [hempty] at hp1
  simp only [List.map_nil, List.append_nil] at hp1
  rw [h1]
  refine ⟨t1, rfl, ?_, ?_, ?_, print_eq t1⟩
  · intro r hr
    exact (List.mem_replicate.mp hr).2
  · rw [entries_live t1 hl1.2, ← hp1.length_eq, List.length_map]
  · rw [entries_live t1 hl1.2]
    exact hp1

/-- C6 on three pairs set on a table of capacity 2: the text printed is the
rendering of the three pairs, in bucket order. -/
theorem print_round_trip_witness :
    (∃ t, (run_sets (shash_table_create create_ok 2) (three_pairs.map call_of)).2 = some t ∧
      (∀ r ∈ (run_sets (shash_table_create create_ok 2) (three_pairs.map call_of)).1, r = 1) ∧
      (entries t).length = three_pairs.length ∧
      ((entries t).map pair_of).Perm three_pairs ∧
      shash_table_print (some t) =
        "\x7b" ++ ", ".intercalate ((entries t).map render) ++ "\x7d\n") ∧
    shash_table_print (run_sets (shash_table_create create_ok 2) (three_pairs.map call_of)).2 =
      "\x7b'c': '3', 'a': '1', 'b': '2'\x7d\n" :=
  ⟨print_round_trip 2 (by decide) three_pairs (by decide) (by decide), by decide⟩

/-- C11, as amended. `shash_table_print` called with an absent table
returns before its first `printf`: it writes nothing, not even the braces. -/
theorem print_absent_writes_nothing : shash_table_print none = "" := rfl

/-- C11 as stated fails: for an absent table the text written is not the
empty-brace form with its newline. -/
theorem print_absent_not_braces : shash_table_print none ≠ "\x7b\x7d\n" := by
  decide

theorem set_shape (a : set_alloc) (t : shash_table_t) (key value : Option String) :
    ∃ t1, (shash_table_set a (some t) key value).2 = some t1 ∧ t1.size = t.size ∧
      t1.array.length = t.array.length := by
  rcases set_cases a (some t) key value with h | ⟨t0, k, v, chain, h0, -, -, -, -, h⟩ |
    ⟨t0, k, v, h0, -, -, -, -, h⟩
  · exact ⟨t, by rw [h], rfl, rfl⟩
  · cases h0
    exact ⟨⟨t.size, t.array.set (key_index k t.size) chain⟩, by rw [h], rfl, by simp⟩
  · cases h0
    exact ⟨⟨t.size, t.array.set (key_index k t.size)
      (⟨k, v⟩ :: t.array.getD (key_index k t.size) [])⟩, by rw [h], rfl, by simp⟩

theorem run_sets_none (calls : List set_call) : (run_sets none calls).2 = none := by
  induction calls with
  | nil => rfl
  | cons c cs ih =>
    have : (shash_table_set c.a none c.key c.value).2 = none := by simp [shash_table_set]
    simp only [run_sets, this, ih]

theorem run_sets_shape (calls : List set_call) :
    ∀ t : shash_table_t, ∃ t1, (run_sets (some t) calls).2 = some t1 ∧ t1.size = t.size ∧
      t1.array.length = t.array.length := by
  induction calls with
  | nil => intro t; exact ⟨t, rfl, rfl, rfl⟩
  | cons c cs ih =>
    intro t
    obtain ⟨t1, h1, hs1, ha1⟩ := set_shape c.a t c.key c.value
    obtain ⟨t2, h2, hs2, ha2⟩ := ih t1
    refine ⟨t2, ?_, by rw [hs2, hs1], by rw [ha2, ha1]⟩
    simp only [run_sets, h1, h2]

/-- C13. A call `shash_table_set(t, key, value)`, whatever its arguments and
the outcome of its allocations, so whether it returns 1 or 0, leaves the
recorded size and the number of buckets of the table as they were; hence a
table reached from `shash_table_create(C)` by any calls of `shash_table_set`
has size `C`, `C` buckets, and `C > 0`. -/
theorem set_keeps_capacity :
    (∀ (a : set_alloc) (t : shash_table_t) (key value : Option String),
      ∃ t1, (shash_table_set a (some t) key value).2 = some t1 ∧ t1.size = t.size ∧
        t1.array.length = t.array.length) ∧
    (∀ (a : create_alloc) (C : Nat) (calls : List set_call) (t : shash_table_t),
      (run_sets (shash_table_create a C) calls).2 = some t →
        0 < C ∧ t.size = C ∧ t.array.length = C) := by
  refine ⟨set_shape, ?_⟩
  intro a C calls t h
  cases hc : shash_table_create a C with
  | none =>
    rw [hc, run_sets_none] at h
    cases h
  | some t0 =>
    obtain ⟨hl, hs, -⟩ := create_live a C t0 hc
    obtain ⟨t1, h1, hs1, ha1⟩ := run_sets_shape calls t0
    rw [hc, h1] at h
    cases h
    refine ⟨?_, by rw [hs1, hs], by rw [ha1, hl.2, hs]⟩
    rw [← hs]
    exact hl.1

/-- C13 on the scenario: after the two sets on `create(5)` the table has
size 5 and 5 buckets. -/
theorem set_keeps_capacity_witness :
    (run_sets (shash_table_create create_ok 5) scenario_calls).2 =
        some ⟨5, [[⟨"a", "1"⟩], [⟨"b", "2"⟩], [], [], []]⟩ ∧
      (0 < 5 ∧ (⟨5, [[⟨"a", "1"⟩], [⟨"b", "2"⟩], [], [], []]⟩ : shash_table_t).size = 5 ∧
        (⟨5, [[⟨"a", "1"⟩], [⟨"b", "2"⟩], [], [], []]⟩ : shash_table_t).array.length = 5) :=
  ⟨by decide, set_keeps_capacity.2 create_ok 5 scenario_calls _ (by decide)⟩

/-- C16. In every table reachable from `shash_table_create` by
`shash_table_set` calls, the bucket index `hash(key) mod size` that
`shash_table_set` and `shash_table_get` compute is, for every key, strictly
less than the number of buckets. -/
theorem bucket_index_in_range (t : shash_table_t) (h : reachable t) (key : String) :
    key_index key t.size < t.array.length := by
  obtain ⟨hl, -, -⟩ := reachable_live t h
  rw [hl.2]
  exact key_index_lt key t.size hl.1

/-- C16 on the table created with capacity 2 and then set with `"a"`. -/
theorem bucket_index_in_range_witness :
    key_index "zebra" (⟨2, [[⟨"a", "1"⟩], []]⟩ : shash_table_t).size <
      (⟨2, [[⟨"a", "1"⟩], []]⟩ : shash_table_t).array.length :=
  bucket_index_in_range _
    (reachable.set set_ok ⟨2, [[], []]⟩ (some "a") (some "1") _
      (reachable.create create_ok 2 _ (by decide)) (by decide)) "zebra"

/-- C17. Whenever `shash_table_set` returns 0, for an invalid argument or
for a failed allocation of the value copy, of the node or of the key copy,
the table after the call is the table before it: same buckets, same entries,
same values. -/
theorem set_failure_unchanged (a : set_alloc) (ht : Option shash_table_t)
    (key value : Option String) (h : (shash_table_set a ht key value).1 = 0) :
    (shash_table_set a ht key value).2 = ht := by
  rcases set_result a ht key value with h1 | ⟨-, h2⟩
  · rw [h1] at h
    exact absurd h (by decide)
  · exact h2

/-- C17 on the table holding `("k", "old")`: an empty key, and a failure of
each of the three allocations when a new key `"j"` is set. -/
theorem set_failure_unchanged_witness :
    (shash_table_set set_ok (some table_k_old) (some "") (some "v")).2 = some table_k_old ∧
    (shash_table_set ⟨false, true, true⟩ (some table_k_old) (some "j") (some "v")).2
      = some table_k_old ∧
    (shash_table_set ⟨true, false, true⟩ (some table_k_old) (some "j") (some "v")).2
      = some table_k_old ∧
    (shash_table_set ⟨true, true, false⟩ (some table_k_old) (some "j") (some "v")).2
      = some table_k_old :=
  ⟨set_failure_unchanged set_ok (some table_k_old) (some "") (some "v") (by decide),
    set_failure_unchanged ⟨false, true, true⟩ (some table_k_old) (some "j") (some "v")
      (by decide),
    set_failure_unchanged ⟨true, false, true⟩ (some table_k_old) (some "j") (some "v")
      (by decide),
    set_failure_unchanged ⟨true, true, false⟩ (some table_k_old) (some "j") (some "v")
      (by decide)⟩

theorem entries_mem_getD (t : shash_table_t) (hl : live t) (i : Nat) (hi : i < t.array.length)
    (n : shash_node_t) (h : n ∈ t.array.getD i []) : n ∈ entries t := by
  rw [entries_live t hl.2]
  exact mem_getD _ _ hi n h

theorem set_search_some_mem (k v : String) (chain chain1 : List shash_node_t)
    (h : set_search k v chain = some chain1) : ∃ n ∈ chain, n.key = k := by
  by_contra hne
  have h1 : set_search k v chain = none := by
    rw [set_search_none, get_search_none]
    intro n hn e
    exact hne ⟨n, hn, e⟩
  rw [h1] at h
  cases h

/-- C14. On a live table, for a non-empty key `k` that no entry of the table
has, and a value `v`: the call returns 1 when its allocations succeed, and a
call that returns 1 leaves the table with the new entry `(k, v)` at the head
of the chain of bucket `key_index k size`, followed by the previous chain of
that bucket in its previous order, every other bucket being unchanged. -/
theorem set_new_key_at_head (t : shash_table_t) (hl : live t) (k v : String) (hk : k ≠ "")
    (hfresh : ∀ n ∈ entries t, n.key ≠ k) :
    (shash_table_set set_ok (some t) (some k) (some v)).1 = 1 ∧
    ∀ a : set_alloc, (shash_table_set a (some t) (some k) (some v)).1 = 1 →
      ∃ t1, (shash_table_set a (some t) (some k) (some v)).2 = some t1 ∧
        t1.size = t.size ∧ t1.array.length = t.array.length ∧
        t1.array.getD (key_index k t.size) [] = ⟨k, v⟩ :: t.array.getD (key_index k t.size) [] ∧
        ∀ i, i ≠ key_index k t.size → t1.array.getD i [] = t.array.getD i [] := by
  have hidx : key_index k t.size < t.array.length := by
    rw [hl.2]; exact key_index_lt k t.size hl.1
  refine ⟨set_ok_result t k v hk, ?_⟩
  intro a hr
  rcases set_cases a (some t) (some k) (some v) with h | ⟨t0, k0, v0, chain, h0, hk0, hv0, -, hs, h⟩ |
    ⟨t0, k0, v0, h0, hk0, hv0, -, hs, h⟩
  · rw [h] at hr
    simp at hr
  · cases h0; cases hk0; cases hv0
    obtain ⟨n, hn, hnk⟩ := set_search_some_mem _ _ _ _ hs
    exact absurd hnk (hfresh n (entries_mem_getD t hl _ hidx n hn))
  · cases h0; cases hk0; cases hv0
    refine ⟨⟨t.size, t.array.set (key_index k t.size)
      (⟨k, v⟩ :: t.array.getD (key_index k t.size) [])⟩, by rw [h], rfl, by simp, ?_, ?_⟩
    · show (t.array.set _ _).getD _ [] = _
      rw [getD_set _ _ _ _ hidx, if_pos rfl]
    · intro i hi
      show (t.array.set _ _).getD _ [] = _
      rw [getD_set _ _ _ _ hidx, if_neg (fun e => hi e.symm)]

/-- C14 on a table with one entry in each of its two buckets: the new key
`"d"` goes to the head of bucket 1, before `"b"`, and bucket 0 is as it was. -/
theorem set_new_key_at_head_witness :
    ∃ t1, (shash_table_set set_ok (some table_two) (some "d") (some "4")).2 = some t1 ∧
      t1.size = table_two.size ∧ t1.array.length = table_two.array.length ∧
      t1.array.getD (key_index "d" table_two.size) [] =
        ⟨"d", "4"⟩ :: table_two.array.getD (key_index "d" table_two.size) [] ∧
      ∀ i, i ≠ key_index "d" table_two.size → t1.array.getD i [] = table_two.array.getD i [] :=
  (set_new_key_at_head table_two (by decide) "d" "4" (by decide) (by decide)).2 set_ok
    (by decide)

theorem set_search_eq_map (k v : String) (chain chain1 : List shash_node_t)
    (hd : (chain.map shash_node_t.key).Nodup) (h : set_search k v chain = some chain1) :
    chain1 = chain.map (set_value k v) := by
  induction chain generalizing chain1 with
  | nil => simp [set_search] at h
  | cons n rest ih =>
    rw [List.map_cons, List.nodup_cons] at hd
    simp only [set_search] at h
    split at h
    · rename_i hkn
      cases h
      have hrest : rest.map (set_value k v) = rest := by
        conv_rhs => rw [← List.map_id rest]
        apply List.map_congr_left
        intro m hm
        have : m.key ≠ k := by
          intro e
          apply hd.1
          rw [← hkn, ← e]
          exact List.mem_map_of_mem _ hm
        simp [set_value, this]
      rw [List.map_cons, hrest]
      simp [set_value, hkn]
    · rename_i hkn
      cases hr : set_search k v rest with
      | none => simp [hr] at h
      | some rest1 =>
        simp [hr] at h
        subst h
        have hne : ¬ n.key = k := fun e => hkn e.symm
        simp [set_value, hne, ih rest1 hd.2 hr]

theorem map_set_value_id (k v : String) (chain : List shash_node_t)
    (h : ∀ n ∈ chain, n.key ≠ k) : chain.map (set_value k v) = chain := by
  conv_rhs => rw [← List.map_id chain]
  apply List.map_congr_left
  intro m hm
  simp [set_value, h m hm]

theorem chain_keys_nodup (t : shash_table_t) (hu : keys_unique t) (i : Nat)
    (hi : i < t.array.length) : ((t.array.getD i []).map shash_node_t.key).Nodup := by
  unfold keys_unique at hu
  rw [flatten_old _ _ hi] at hu
  simp only [List.map_append] at hu
  exact (List.nodup_append.mp (List.nodup_append.mp hu).2.1).1

/-- C12. On a table reachable from `shash_table_create`, for a non-empty key
`k` and a value `v`: the call returns 1 when its allocations succeed; after a
call that returns 1, if an entry with key `k` existed, the number of entries
and the keys of every bucket chain are as before and the table differs only
in the value of the entry with key `k`, now `v`; if no entry with key `k`
existed, the number of entries has grown by exactly one. -/
theorem set_updates_or_adds (t : shash_table_t) (hr : reachable t) (k v : String)
    (hk : k ≠ "") :
    (shash_table_set set_ok (some t) (some k) (some v)).1 = 1 ∧
    ∀ a : set_alloc, (shash_table_set a (some t) (some k) (some v)).1 = 1 →
      ∃ t1, (shash_table_set a (some t) (some k) (some v)).2 = some t1 ∧
        ((∃ n ∈ entries t, n.key = k) →
          (entries t1).length = (entries t).length ∧
          (∀ i, (t1.array.getD i []).map shash_node_t.key =
            (t.array.getD i []).map shash_node_t.key) ∧
          t1.size = t.size ∧
          t1.array = t.array.map (List.map (set_value k v))) ∧
        ((∀ n ∈ entries t, n.key ≠ k) → (entries t1).length = (entries t).length + 1) := by
  obtain ⟨hl, hb, hu⟩ := reachable_live t hr
  have hidx : key_index k t.size < t.array.length := by
    rw [hl.2]; exact key_index_lt k t.size hl.1
  refine ⟨set_ok_result t k v hk, ?_⟩
  intro a hret
  obtain ⟨t2, h2, hl2, -⟩ := set_live a t (some k) (some v) hl
  rcases set_cases a (some t) (some k) (some v) with h | ⟨t0, k0, v0, chain, h0, hk0, hv0, -, hs, h⟩ |
    ⟨t0, k0, v0, h0, hk0, hv0, -, hs, h⟩
  · rw [h] at hret
    simp at hret
  · cases h0; cases hk0; cases hv0
    rw [h] at h2
    have h21 : t2 = ⟨t.size, t.array.set (key_index k t.size) chain⟩ :=
      (Option.some.inj h2).symm
    subst h21
    have hchain : chain = (t.array.getD (key_index k t.size) []).map (set_value k v) :=
      set_search_eq_map k v _ _ (chain_keys_nodup t hu _ hidx) hs
    have harr : t.array.set (key_index k t.size) chain =
        t.array.map (List.map (set_value k v)) := by
      apply List.ext_getElem
      · simp
      · intro i h1 h2
        have hi : i < t.array.length := by simpa using h1
        rw [List.getElem_set, List.getElem_map]
        by_cases hik : key_index k t.size = i
        · rw [if_pos hik, hchain]
          subst hik
          rw [List.getD_eq_getElem _ _ hi]
        · rw [if_neg hik]
          symm
          apply map_set_value_id
          intro n hn e
          apply hik
          have := hb i hi n (by rw [List.getD_eq_getElem _ _ hi]; exact hn)
          rw [← e, this]
    refine ⟨_, by rw [h], ?_, ?_⟩
    · intro _
      refine ⟨?_, ?_, rfl, harr⟩
      · rw [entries_live _ hl2.2, entries_live t hl.2]
        show (t.array.set (key_index k t.size) chain).flatten.length = _
        rw [flatten_set _ _ hidx]
        conv_rhs => rw [flatten_old t.array _ hidx]
        simp only [List.length_append, hchain, List.length_map]
      · intro i
        show ((t.array.set (key_index k t.size) chain).getD i []).map _ = _
        rw [getD_set _ _ _ _ hidx]
        by_cases hik : key_index k t.size = i
        · rw [if_pos hik, ← hik]
          exact set_search_keys _ _ _ _ hs
        · rw [if_neg hik]
    · intro hfresh
      obtain ⟨n, hn, hnk⟩ := set_search_some_mem _ _ _ _ hs
      exact absurd hnk (hfresh n (entries_mem_getD t hl _ hidx n hn))
  · cases h0; cases hk0; cases hv0
    rw [h] at h2
    have h21 : t2 = ⟨t.size, t.array.set (key_index k t.size)
        (⟨k, v⟩ :: t.array.getD (key_index k t.size) [])⟩ := (Option.some.inj h2).symm
    subst h21
    refine ⟨_, by rw [h], ?_, ?_⟩
    · intro hex
      obtain ⟨n, hn, hnk⟩ := hex
      rw [entries_live t hl.2] at hn
      obtain ⟨i, hi, hni⟩ := mem_flatten_getD _ _ hn
      have hik : key_index k t.size = i := by rw [← hnk]; exact hb i hi n hni
      rw [← hik] at hni
      exact absurd hnk ((get_search_none k _).mp ((set_search_none k v _).mp hs) n hni)
    · intro _
      rw [entries_live _ hl2.2, entries_live t hl.2]
      show (t.array.set (key_index k t.size) _).flatten.length = _
      rw [flatten_set _ _ hidx]
      conv_rhs => rw [flatten_old t.array _ hidx]
      simp only [List.length_append, List.length_cons]
      omega

/-- C12 on the table created with capacity 2 and then set with `"a"`:
setting `"a"` again replaces its value and adds no entry. -/
theorem set_updates_or_adds_witness :
    ∃ t1, (shash_table_set set_ok (some ⟨2, [[⟨"a", "1"⟩], []]⟩) (some "a") (some "9")).2
        = some t1 ∧
      ((∃ n ∈ entries ⟨2, [[⟨"a", "1"⟩], []]⟩, n.key = "a") →
        (entries t1).length = (entries ⟨2, [[⟨"a", "1"⟩], []]⟩).length ∧
        (∀ i, (t1.array.getD i []).map shash_node_t.key =
          ((⟨2, [[⟨"a", "1"⟩], []]⟩ : shash_table_t).array.getD i []).map shash_node_t.key) ∧
        t1.size = (⟨2, [[⟨"a", "1"⟩], []]⟩ : shash_table_t).size ∧
        t1.array = (⟨2, [[⟨"a", "1"⟩], []]⟩ : shash_table_t).array.map
          (List.map (set_value "a" "9"))) ∧
      ((∀ n ∈ entries ⟨2, [[⟨"a", "1"⟩], []]⟩, n.key ≠ "a") →
        (entries t1).length = (entries ⟨2, [[⟨"a", "1"⟩], []]⟩).length + 1) :=
  (set_updates_or_adds ⟨2, [[⟨"a", "1"⟩], []]⟩
    (reachable.set set_ok ⟨2, [[], []]⟩ (some "a") (some "1") _
      (reachable.create create_ok 2 _ (by decide)) (by decide))
    "a" "9" (by decide)).2 set_ok (by decide)

theorem set_new_cap1 (chain : List shash_node_t) (k v : String) (hk : k ≠ "")
    (hfresh : ∀ n ∈ chain, n.key ≠ k) :
    shash_table_set set_ok (some ⟨1, [chain]⟩) (some k) (some v) =
      (1, some ⟨1, [⟨k, v⟩ :: chain]⟩) := by
  have hi : key_index k 1 = 0 := Nat.mod_one _
  have hs : set_search k v chain = none := by
    rw [set_search_none, get_search_none]
    exact hfresh
  simp only [shash_table_set, hk, strdup, set_ok, hi, List.getD_cons_zero, hs, if_false,
    if_true, Bool.not_true, Bool.false_eq_true, List.set_cons_zero]

/-- In a table of capacity 1 every new key goes to the head of the one
chain, so the chain lists the pairs set from the last to the first. -/
theorem run_sets_cap1 (pairs : List (String × String)) :
    ∀ chain : List shash_node_t, (pairs.map Prod.fst).Nodup → (∀ p ∈ pairs, p.1 ≠ "") →
      (∀ p ∈ pairs, ∀ n ∈ chain, n.key ≠ p.1) →
      (run_sets (some ⟨1, [chain]⟩) (pairs.map call_of)).2 =
        some ⟨1, [pairs.reverse.map node_of ++ chain]⟩ := by
  induction pairs with
  | nil => intro chain _ _ _; rfl
  | cons p ps ih =>
    intro chain hd hne hfresh
    rw [List.map_cons, List.nodup_cons] at hd
    have h1 := set_new_cap1 chain p.1 p.2 (hne p (List.mem_cons_self _ _))
      (hfresh p (List.mem_cons_self _ _))
    have hfresh1 : ∀ q ∈ ps, ∀ n ∈ (⟨p.1, p.2⟩ : shash_node_t) :: chain, n.key ≠ q.1 := by
      intro q hq n hn
      rcases List.mem_cons.mp hn with rfl | hn
      · intro e
        exact hd.1 (List.mem_map.mpr ⟨q, hq, e.symm⟩)
      · exact hfresh q (List.mem_cons_of_mem _ hq) n hn
    have h2 := ih (⟨p.1, p.2⟩ :: chain) hd.2 (fun q hq => hne q (List.mem_cons_of_mem _ hq))
      hfresh1
    simp only [List.map_cons, run_sets, call_of, h1]
    simp only [call_of] at h2
    rw [h2]
    simp [node_of]

/-- C15. The table keeps no sort order. For a table of capacity 1 and every
list of pairs with pairwise distinct non-empty keys set in order (allocation
succeeding), the entries `shash_table_print` renders are the pairs in exactly
the reverse of insertion order, last set first; and for some such list the
printed keys are neither in ascending key order nor in insertion order. -/
theorem print_reverse_of_insertion :
    (∀ pairs : List (String × String), (pairs.map Prod.fst).Nodup → (∀ p ∈ pairs, p.1 ≠ "") →
      ∃ t, (run_sets (shash_table_create create_ok 1) (pairs.map call_of)).2 = some t ∧
        entries t = pairs.reverse.map node_of ∧
        shash_table_print (some t) =
          "\x7b" ++ ", ".intercalate (pairs.reverse.map (fun p => render (node_of p))) ++
            "\x7d\n") ∧
    (∃ (pairs : List (String × String)) (t : shash_table_t),
      (pairs.map Prod.fst).Nodup ∧ (∀ p ∈ pairs, p.1 ≠ "") ∧
      (run_sets (shash_table_create create_ok 1) (pairs.map call_of)).2 = some t ∧
      (entries t).map shash_node_t.key ≠ pairs.map Prod.fst ∧
      ¬ ((entries t).map shash_node_t.key).Pairwise (fun x y => x < y)) := by
  have hcreate : shash_table_create create_ok 1 = some ⟨1, [[]]⟩ := by decide
  constructor
  · intro pairs hd hne
    have hrun := run_sets_cap1 pairs [] hd hne (by intro p _ n hn; simp at hn)
    rw [List.append_nil] at hrun
    refine ⟨⟨1, [pairs.reverse.map node_of]⟩, by rw [hcreate, hrun], ?_, ?_⟩
    · rw [entries_live _ rfl]
      simp
    · rw [print_eq, entries_live _ rfl]
      simp only [List.flatten_cons, List.flatten_nil, List.append_nil, List.map_map]
      rfl
  · refine ⟨unsorted_pairs, ⟨1, [[⟨"b", "2"⟩, ⟨"c", "3"⟩, ⟨"a", "1"⟩]]⟩, by decide, by decide,
      by decide, by decide, ?_⟩
    intro h
    have h1 : ("c" : String) < "a" := by
      have h2 : (["b", "c", "a"] : List String).Pairwise (fun x y => x < y) := h
      simp only [List.pairwise_cons] at h2
      exact h2.2.1 "a" (by simp)
    rw [String.lt_iff_toList_lt] at h1
    revert h1
    decide

/-- C15 on three pairs set in the order `"a"`, `"c"`, `"b"` on a table of
capacity 1: the text printed lists `"b"`, `"c"`, `"a"`. -/
theorem print_reverse_of_insertion_witness :
    (∃ t, (run_sets (shash_table_create create_ok 1) (unsorted_pairs.map call_of)).2 = some t ∧
      entries t = unsorted_pairs.reverse.map node_of ∧
      shash_table_print (some t) =
        "\x7b" ++ ", ".intercalate (unsorted_pairs.reverse.map (fun p => render (node_of p))) ++
          "\x7d\n") ∧
    shash_table_print (run_sets (shash_table_create create_ok 1) (unsorted_pairs.map call_of)).2 =
      "\x7b'b': '2', 'c': '3', 'a': '1'\x7d\n" :=
  ⟨print_reverse_of_insertion.1 unsorted_pairs (by decide) (by decide), by decide⟩

end ShashTable
